import Mathlib

/-!
Verification development for the `build.py` book-build pipeline.

The script is a linear pipeline: discover markdown files under a fixed
source root, normalize chapter headings with a multiline regex
substitution, convert each file with an external converter, assemble a
top-level descriptor, and render it twice.

We embed the pure parts directly (text and paths as `List Char`) and the
stateful parts as explicit transformers over a small filesystem model.
External processes (pandoc, xelatex) are opaque functions plus a success
flag.
-/

namespace Build

/-! ## Definitions -/

/-! ### Character classes

`re` character classes, restricted to the ASCII fragment the book sources
use.  Python's `\s` on ASCII text is exactly space, tab, newline, carriage
return, vertical tab and form feed; `\d` is `0`-`9`. -/

def isSpaceChar (c : Char) : Bool :=
  c = ' ' || c = '\t' || c = '\n' || c = '\x0d' || c = '\x0b' || c = '\x0c'

def isDigitChar (c : Char) : Bool :=
  '0' ≤ c && c ≤ '9'

/-- Literal word required by the heading regex. -/
def chapterLit : List Char := ('C' : Char) :: ('h' : Char) :: ('a' : Char) ::
  ('p' : Char) :: ('t' : Char) :: ('e' : Char) :: ('r' : Char) :: []

/-- Strip a literal off the front of a list: `stripLit lit s = some t`
exactly when `s = lit ++ t`. -/
def stripLit : List Char → List Char → Option (List Char)
  | [], s => some s
  | _ :: _, [] => none
  | c :: cs, x :: xs => if c = x then stripLit cs xs else none

/-! ### The heading regex

`re.sub(r'^#\s+Chapter\s+\d+:\s*', '# ', content, flags=re.MULTILINE)`,
from `convert_md_to_tex` in `build.py`.

`matchChapter s` attempts to match the pattern at the head of `s` and
returns `(consumed, rest)` on success.  Because each greedy component
(`\s+`, `\d+`, `\s*`) is followed by a character disjoint from its class
(or by nothing), maximal munch coincides with the backtracking regex
semantics. -/

def matchChapter (s : List Char) : Option (List Char × List Char) :=
  match s with
  | '#' :: r1 =>
    let sp1 := r1.takeWhile isSpaceChar
    let r2 := r1.dropWhile isSpaceChar
    if sp1 = [] then none else
    match stripLit chapterLit r2 with
    | none => none
    | some r3 =>
      let sp2 := r3.takeWhile isSpaceChar
      let r4 := r3.dropWhile isSpaceChar
      if sp2 = [] then none else
      let ds := r4.takeWhile isDigitChar
      let r5 := r4.dropWhile isDigitChar
      if ds = [] then none else
      match r5 with
      | ':' :: r6 =>
        let sp3 := r6.takeWhile isSpaceChar
        let r7 := r6.dropWhile isSpaceChar
        some ('#' :: (sp1 ++ chapterLit ++ sp2 ++ ds ++ ':' :: sp3), r7)
      | _ => none
  | _ => none

/-- Scan of `re.sub`: at every position where `^` holds in the original
string (start of input, or just after a `'\n'`, including a `'\n'`
consumed by a previous match) the pattern is attempted; a match is
replaced by `"# "` and scanning resumes after the consumed region.  The
fuel only serves termination; `fuel ≥ s.length` always suffices. -/
def subAux : Nat → Bool → List Char → List Char
  | 0, _, s => s
  | _ + 1, _, [] => []
  | fuel + 1, atStart, c :: rest =>
    if atStart then
      match matchChapter (c :: rest) with
      | some (consumed, rest') =>
        '#' :: ' ' :: subAux fuel (consumed.getLast? == some '\n') rest'
      | none => c :: subAux fuel (c == '\n') rest
    else c :: subAux fuel (c == '\n') rest

/-- Python's `re.sub` of the heading pattern with replacement `"# "`,
over the whole content, `MULTILINE` semantics (the heading-rewrite step
of `convert_md_to_tex`). -/
def normalizeHeaders (s : List Char) : List Char := subAux s.length true s

/-- Scanner with just enough fuel; gives clean fuel-free equations. -/
def normGo (b : Bool) (s : List Char) : List Char := subAux s.length b s

/-! ### Shape of a match

A successful match consumes `#`, then nonempty whitespace, the literal
`Chapter`, nonempty whitespace, nonempty digits, a colon, and a maximal
(possibly empty) run of whitespace. -/

def chapterCore (sp1 sp2 ds sp3 : List Char) : List Char :=
  '#' :: (sp1 ++ chapterLit ++ sp2 ++ ds ++ ':' :: sp3)

def goodParts (sp1 sp2 ds sp3 : List Char) : Prop :=
  sp1 ≠ [] ∧ sp2 ≠ [] ∧ ds ≠ [] ∧
    (∀ c ∈ sp1, isSpaceChar c) ∧ (∀ c ∈ sp2, isSpaceChar c) ∧
    (∀ c ∈ sp3, isSpaceChar c) ∧ (∀ c ∈ ds, isDigitChar c)

def headNotSpace : List Char → Prop
  | [] => True
  | c :: _ => isSpaceChar c = false

/-! ### Lines, and the per-line reading of the rewrite -/

def splitOnChar (sep : Char) : List Char → List (List Char)
  | [] => [[]]
  | c :: rest =>
    if c = sep then [] :: splitOnChar sep rest
    else
      match splitOnChar sep rest with
      | [] => [[c]]
      | l :: ls => (c :: l) :: ls

def joinWithChar (sep : Char) : List (List Char) → List Char
  | [] => []
  | [l] => l
  | l :: ls => l ++ sep :: joinWithChar sep ls

def splitLines : List Char → List (List Char) := splitOnChar '\n'

def joinLines : List (List Char) → List Char := joinWithChar '\n'

/-- Modelled from the spec: the rewrite of one line, "heading marker +
literal word + ordinal number + colon + title text" becomes "heading
marker + title text". -/
def lineNorm (l : List Char) : List Char :=
  match matchChapter l with
  | some (_, r) => '#' :: ' ' :: r
  | none => l

/-- Modelled from the spec: the per-line reading of the heading rewrite —
split into lines, rewrite each matching line, rejoin. -/
def perLineNorm (s : List Char) : List Char :=
  joinLines ((splitLines s).map lineNorm)

/-- Scan deciding that no match found by `subAux` crosses a line break
(no consumed region contains `'\n'`).  Same fuel discipline as
`subAux`. -/
def clfAux : Nat → Bool → List Char → Bool
  | 0, _, _ => true
  | _ + 1, _, [] => true
  | fuel + 1, atStart, c :: rest =>
    if atStart then
      match matchChapter (c :: rest) with
      | some (consumed, rest') =>
        !(decide (('\n' : Char) ∈ consumed)) &&
          clfAux fuel (consumed.getLast? == some '\n') rest'
      | none => clfAux fuel (c == '\n') rest
    else clfAux fuel (c == '\n') rest

def crossLineFree (s : List Char) : Bool := clfAux s.length true s

def clfGo (b : Bool) (s : List Char) : Bool := clfAux s.length b s

/-- Scan deciding that the pattern matches at no line start of `s`
("already-normalized" text). -/
def noHeadingAux : Bool → List Char → Bool
  | _, [] => true
  | atStart, c :: rest =>
    (if atStart then (matchChapter (c :: rest)).isNone else true) &&
      noHeadingAux (c == '\n') rest

def noHeading (s : List Char) : Bool := noHeadingAux true s

/-! ### Paths and constants of the script -/

/-- Substring test, Python's `pat in s`. -/
def hasSub (pat : List Char) : List Char → Bool
  | [] => (stripLit pat []).isSome
  | c :: t => (stripLit pat (c :: t)).isSome || hasSub pat t

def endsWithL (sfx s : List Char) : Bool := (stripLit sfx.reverse s.reverse).isSome

/-- `os.path.join root fn` for a relative `fn`. -/
def joinPath (root fn : List Char) : List Char := root ++ '/' :: fn

/-- `os.path.basename`: the part after the last `'/'`. -/
def basenameL (p : List Char) : List Char :=
  (p.reverse.takeWhile (fun c => !(c == '/'))).reverse

def stripTrailingSlashes (p : List Char) : List Char :=
  (p.reverse.dropWhile (fun c => c == '/')).reverse

def dirnameCore (pre : List Char) : List Char :=
  if pre = [] then []
  else if pre.all (fun c => c == '/') then pre
  else stripTrailingSlashes pre

/-- `os.path.dirname` (posix): everything up to and including the last
`'/'`, with trailing slashes then stripped unless the head is all
slashes. -/
def dirnameL (p : List Char) : List Char :=
  dirnameCore ((p.reverse.dropWhile (fun c => !(c == '/'))).reverse)

def SOURCE_DIR : List Char := ("/home/msi/Desktop/book").toList

def BUILD_DIR : List Char := ("/home/msi/Desktop/book/latex_build").toList

def PREAMBLE_PATH : List Char := joinPath BUILD_DIR (("preamble.tex").toList)

def TITLEPAGE_PATH : List Char := joinPath BUILD_DIR (("titlepage.tex").toList)

def MAIN_TEX_PATH : List Char := joinPath BUILD_DIR (("main.tex").toList)

def OUTPUT_PDF_NAME : List Char := ("book.pdf").toList

def PDF_PATH : List Char := joinPath BUILD_DIR OUTPUT_PDF_NAME

def buildDirName : List Char := ("latex_build").toList

def tocFilename : List Char := ("TABLE_OF_CONTENTS.md").toList

def mdExt : List Char := (".md").toList

def texExt : List Char := (".tex").toList

def bookName : List Char := ("book").toList

def tempSuffix : List Char := (".temp").toList

/-! ### File discovery (`get_markdown_files`)

The filesystem walk is abstracted as the list of `(root, filenames)`
pairs that `os.walk` yields, in the (arbitrary) order it yields them. -/

/-- A filename is collected iff it ends in `.md` and is not the
table-of-contents file. -/
def eligibleFile (fn : List Char) : Bool :=
  endsWithL mdExt fn && !(fn == tocFilename)

/-- The unsorted list of full paths collected by the walk loop: the
files of every directory whose path does not contain `"latex_build"`. -/
def collectFiles (walk : List (List Char × List (List Char))) : List (List Char) :=
  (walk.filter (fun e => !(hasSub buildDirName e.1))).flatMap
    (fun e => (e.2.filter eligibleFile).map (fun fn => joinPath e.1 fn))

/-- `get_markdown_files`: collect, then `files.sort()` — ascending
lexicographic order on the full path (code-point order, as in Python). -/
def get_markdown_files (walk : List (List Char × List (List Char))) :
    List (List Char) :=
  List.insertionSort (· ≤ ·) (collectFiles walk)

/-! ### Intermediate-file naming (from `main`) -/

/-- Python's `s.replace(pat, rep)`: replace every non-overlapping
occurrence, scanning left to right.  Fuel only serves termination;
`fuel ≥ s.length` suffices for nonempty `pat`. -/
def pyReplaceAux : Nat → List Char → List Char → List Char → List Char
  | 0, s, _, _ => s
  | _ + 1, [], _, _ => []
  | fuel + 1, c :: rest, pat, rep =>
    match stripLit pat (c :: rest) with
    | some t => rep ++ pyReplaceAux fuel t pat rep
    | none => c :: pyReplaceAux fuel rest pat rep

def pyReplace (s pat rep : List Char) : List Char :=
  pyReplaceAux s.length s pat rep

/-- The intermediate-file base name computed in `main`:
`basename(md).replace(".md", ".tex")`, prefixed by the parent-directory
name and an underscore unless that name is empty or `"book"`. -/
def outputBaseName (md : List Char) : List Char :=
  let base := pyReplace (basenameL md) mdExt texExt
  let parent := basenameL (dirnameL md)
  if parent ≠ [] ∧ parent ≠ bookName then parent ++ '_' :: base else base

/-- Modelled from the spec (claim C6's reading): the basename with its
final `.md` extension replaced by `.tex`, prefixed by the parent name
exactly when the parent differs from the source root's own name. -/
def specOutputBaseName (md : List Char) : List Char :=
  let b := basenameL md
  let base := b.take (b.length - 3) ++ texExt
  let parent := basenameL (dirnameL md)
  if parent = bookName then base else parent ++ '_' :: base

/-- Full path of the intermediate file for a source file. -/
def outPathOf (md : List Char) : List Char :=
  joinPath BUILD_DIR (outputBaseName md)

/-! ### The descriptor (`generate_main_tex`) -/

def nlC : List Char := [('\n' : Char)]

def docClassLine : List Char := ("\\documentclass[12pt, a4paper]\x7breport\x7d").toList

def beginDocLine : List Char := ("\\begin\x7bdocument\x7d").toList

def tocLine : List Char := ("\\tableofcontents").toList

def newpageLine : List Char := ("\\newpage").toList

def endDocLine : List Char := ("\\end\x7bdocument\x7d").toList

/-- One inclusion directive, `\input{<name>}`. -/
def inputDirLine (b : List Char) : List Char :=
  ("\\input\x7b").toList ++ b ++ [('\x7d' : Char)]

/-- The exact character sequence `generate_main_tex` writes to
`MAIN_TEX_PATH`, as the concatenation of its `f.write` calls. -/
def generate_main_tex (tex_files : List (List Char)) : List Char :=
  docClassLine ++ nlC ++
  inputDirLine (basenameL PREAMBLE_PATH) ++ nlC ++
  beginDocLine ++ nlC ++
  inputDirLine (basenameL TITLEPAGE_PATH) ++ nlC ++
  tocLine ++ nlC ++ newpageLine ++ nlC ++
  (tex_files.map (fun f => inputDirLine (basenameL f) ++ nlC)).flatten ++
  endDocLine ++ nlC

/-! ### Filesystem model and the stateful pipeline

`FS` is a map from paths to file contents.  An exception carries the
filesystem state at the moment of the raise (the state persists when a
Python exception propagates). -/

structure FS where
  files : List (List Char × List Char)

def FS.lookup (fs : FS) (p : List Char) : Option (List Char) :=
  Option.map Prod.snd (fs.files.find? (fun e => e.1 == p))

def FS.write (fs : FS) (p content : List Char) : FS :=
  ⟨(p, content) :: fs.files.filter (fun e => !(e.1 == p))⟩

def FS.remove (fs : FS) (p : List Char) : FS :=
  ⟨fs.files.filter (fun e => !(e.1 == p))⟩

/-- Path of the temporary normalized copy, `md_file + ".temp"`. -/
def tempPath (md : List Char) : List Char := md ++ tempSuffix

/-- `convert_md_to_tex`: read the source, write the normalized temporary
copy next to it, run the converter (outcome `ok`, output content given by
the opaque `conv`), and remove the temporary copy in a `finally` block.
A missing source raises before the copy is created. -/
def convert_md_to_tex (conv : List Char → List Char) (ok : Bool)
    (fs : FS) (md out : List Char) : Except FS FS :=
  match fs.lookup md with
  | none => Except.error fs
  | some content =>
    let fs1 := fs.write (tempPath md) (normalizeHeaders content)
    if ok then
      Except.ok ((fs1.write out (conv (normalizeHeaders content))).remove
        (tempPath md))
    else
      Except.error (fs1.remove (tempPath md))

/-- Final filesystem state of an invocation, whether it returned or
raised. -/
def stateAfter : Except FS FS → FS
  | Except.ok fs => fs
  | Except.error fs => fs

/-- The conversion loop of `main`: `oks i` is the exit status of the
converter for the i-th file. -/
def processFiles (conv : List Char → List Char) (oks : Nat → Bool) :
    Nat → FS → List (List Char) → Except FS FS
  | _, fs, [] => Except.ok fs
  | i, fs, md :: rest =>
    match convert_md_to_tex conv (oks i) fs md (outPathOf md) with
    | Except.ok fs' => processFiles conv oks (i + 1) fs' rest
    | Except.error e => Except.error e

/-- One `xelatex` invocation: on success it (re)writes the output
artifact, whose content is the opaque `render` of the descriptor. -/
def xelatexRun (render : List Char → List Char) (ok : Bool) (fs : FS) :
    Except FS FS :=
  if ok then
    Except.ok (fs.write PDF_PATH (render ((fs.lookup MAIN_TEX_PATH).getD [])))
  else Except.error fs

/-- `main`: discover, convert each file, write the descriptor, render
twice.  Any error propagates immediately; nothing is caught. -/
def runMain (conv render : List Char → List Char) (oks : Nat → Bool)
    (xok1 xok2 : Bool) (walk : List (List Char × List (List Char)))
    (fs : FS) : Except FS FS :=
  match processFiles conv oks 0 fs (get_markdown_files walk) with
  | Except.error e => Except.error e
  | Except.ok fs1 =>
    match xelatexRun render xok1 (fs1.write MAIN_TEX_PATH
        (generate_main_tex ((get_markdown_files walk).map outPathOf))) with
    | Except.error e => Except.error e
    | Except.ok fs3 =>
      match xelatexRun render xok2 fs3 with
      | Except.error e => Except.error e
      | Except.ok fs4 => Except.ok fs4

/-- Separation hypotheses for the conversion loop: none of the written
paths (temporary copies, intermediate outputs) collides with a source
file, another written path, or the descriptor path, and the source list
has no duplicates.  All hold for ordinary book trees and are decidable
on concrete inputs. -/
def sepHyps (l : List (List Char)) : Prop :=
  (∀ a ∈ l, ∀ b ∈ l,
      a ≠ tempPath b ∧ a ≠ outPathOf b ∧ outPathOf a ≠ tempPath b) ∧
    (∀ a ∈ l, ∀ b ∈ l, outPathOf a = outPathOf b → a = b) ∧
    (∀ a ∈ l, tempPath a ≠ MAIN_TEX_PATH ∧ outPathOf a ≠ MAIN_TEX_PATH) ∧
    l.Nodup

instance (l : List (List Char)) : Decidable (sepHyps l) := by
  unfold sepHyps
  infer_instance

/-! ### Concrete inputs used in counterexamples and witnesses -/

def exIdem : List Char := ("# Chapter 1:Chapter 2: X").toList

def exWhite : List Char := ("#  Chapter  12:   Title").toList

def exMerge : List Char := ("# Chapter 1:\nBody").toList

def exNormal : List Char := ("# Intro\nSome body text.").toList

def exRejected : List Char := ("# Chapter 1 : T").toList

def exMultiLine : List Char :=
  ("# Chapter 1: Intro\nBody text\n# Chapter 2: Next\nMore").toList

def exNameMd : List Char := ("/home/msi/Desktop/book/ch/a.md.md").toList

def exMdPath : List Char := ("/home/msi/Desktop/book/01.md").toList

def exMdPath2 : List Char := ("/home/msi/Desktop/book/02.md").toList

/-- A filesystem holding one source file. -/
def exFS : FS := ⟨[(exMdPath, ("# Chapter 1: Intro\nBody").toList)]⟩

/-- A filesystem holding two source files. -/
def exFS2 : FS :=
  ⟨[(exMdPath, ("# Chapter 1: Intro\nBody").toList),
    (exMdPath2, ("# Chapter 2: Setup\nMore").toList)]⟩

/-- A walk yielding the two source files of `exFS2`. -/
def exWalk9 : List (List Char × List (List Char)) :=
  [(("/home/msi/Desktop/book").toList, [("01.md").toList, ("02.md").toList])]

/-- Converter outcomes: the first file converts, the second fails. -/
def exOks (i : Nat) : Bool := i == 0

/-- Intermediate files as the conversion loop produces them. -/
def exTexFiles : List (List Char) :=
  [joinPath BUILD_DIR (("a_01.tex").toList),
    joinPath BUILD_DIR (("b_02.tex").toList)]

/-- A walk of the source tree: root files (out of order), a subdirectory
with a table-of-contents file and a non-markdown file, and the output
directory itself. -/
def exWalk1 : List (List Char × List (List Char)) :=
  [(("/home/msi/Desktop/book").toList,
      [("02.md").toList, ("01.md").toList]),
    (("/home/msi/Desktop/book/a").toList,
      [("03.md").toList, ("TABLE_OF_CONTENTS.md").toList, ("notes.txt").toList]),
    (("/home/msi/Desktop/book/latex_build").toList,
      [("x.md").toList])]

/-- The same walk with a different directory-iteration order. -/
def exWalk2 : List (List Char × List (List Char)) :=
  [(("/home/msi/Desktop/book/latex_build").toList,
      [("x.md").toList]),
    (("/home/msi/Desktop/book/a").toList,
      [("notes.txt").toList, ("TABLE_OF_CONTENTS.md").toList, ("03.md").toList]),
    (("/home/msi/Desktop/book").toList,
      [("01.md").toList, ("02.md").toList])]

/-- A walk with a sibling directory whose name merely contains
`latex_build` as a substring. -/
def exWalk3 : List (List Char × List (List Char)) :=
  [(("/home/msi/Desktop/book/my_latex_build").toList,
      [("y.md").toList]),
    (("/home/msi/Desktop/book").toList,
      [("01.md").toList])]

/-! ## Theorems -/

/-! ### Basic facts about `stripLit` and the matcher -/

theorem stripLit_self_append (lit t : List Char) :
    stripLit lit (lit ++ t) = some t := by
  induction lit with
  | nil => rfl
  | cons c cs ih => simp [stripLit, ih]

theorem stripLit_eq_some {lit s t : List Char}
    (h : stripLit lit s = some t) : s = lit ++ t := by
  induction lit generalizing s with
  | nil =>
    simp only [stripLit, Option.some.injEq] at h
    simp [h]
  | cons c cs ih =>
    cases s with
    | nil => simp [stripLit] at h
    | cons x xs =>
      by_cases hc : c = x
      · subst hc
        simp only [stripLit, if_pos rfl] at h
        simpa using ih h
      · simp [stripLit, hc] at h

theorem length_dw_le (p : Char → Bool) (l : List Char) :
    (l.dropWhile p).length ≤ l.length :=
  (List.dropWhile_sublist p).length_le

/-- The remainder returned by a successful match is no longer than the
tail of the input (at least the leading `#` is consumed). -/
theorem matchChapter_rest_length {c : Char} {rest consumed r : List Char}
    (h : matchChapter (c :: rest) = some (consumed, r)) :
    r.length ≤ rest.length := by
  by_cases hc : c = '#'
  · subst hc
    simp only [matchChapter] at h
    by_cases h1 : rest.takeWhile isSpaceChar = []
    · simp [h1] at h
    · simp only [h1, if_neg h1, reduceIte] at h
      cases hst : stripLit chapterLit (rest.dropWhile isSpaceChar) with
      | none => simp [hst] at h
      | some r3 =>
        simp only [hst] at h
        by_cases h2 : r3.takeWhile isSpaceChar = []
        · simp [h2] at h
        · simp only [h2, reduceIte] at h
          by_cases h3 : (r3.dropWhile isSpaceChar).takeWhile isDigitChar = []
          · simp [h3] at h
          · simp only [h3, reduceIte] at h
            cases h5 : (r3.dropWhile isSpaceChar).dropWhile isDigitChar with
            | nil => simp [h5] at h
            | cons x r6 =>
              by_cases hx : x = ':'
              · subst hx
                simp only [h5, Option.some.injEq, Prod.mk.injEq] at h
                have hr : r = r6.dropWhile isSpaceChar := h.2.symm
                have l6 : r6.length < rest.length := by
                  have e3 : r3.length ≤ (rest.dropWhile isSpaceChar).length :=
                    stripLit_eq_some hst ▸ by simp
                  have e4 : (r3.dropWhile isSpaceChar).length ≤ r3.length :=
                    length_dw_le _ _
                  have e5 : r6.length <
                      ((r3.dropWhile isSpaceChar).dropWhile isDigitChar).length := by
                    rw [h5]; simp
                  have e6 : ((r3.dropWhile isSpaceChar).dropWhile isDigitChar).length ≤
                      (r3.dropWhile isSpaceChar).length := length_dw_le _ _
                  have e7 : (rest.dropWhile isSpaceChar).length ≤ rest.length :=
                    length_dw_le _ _
                  omega
                have : r.length ≤ r6.length := by
                  rw [hr]; exact length_dw_le _ _
                omega
              · simp [h5, hx] at h
  · simp [matchChapter, hc] at h

/-! ### Fuel irrelevance and scanner equations -/

theorem subAux_fuel_succ (fuel : Nat) :
    ∀ (b : Bool) (s : List Char), s.length ≤ fuel →
      subAux (fuel + 1) b s = subAux fuel b s := by
  induction fuel with
  | zero =>
    intro b s hs
    have : s = [] := List.length_eq_zero.mp (Nat.le_zero.mp hs)
    subst this
    rfl
  | succ n ih =>
    intro b s hs
    cases s with
    | nil => rfl
    | cons c rest =>
      have hrest : rest.length ≤ n := by
        simp only [List.length_cons] at hs; omega
      cases b with
      | false =>
        show subAux (n + 1 + 1) false (c :: rest) = subAux (n + 1) false (c :: rest)
        simp only [subAux, Bool.false_eq_true, reduceIte]
        rw [ih (c == '\n') rest hrest]
      | true =>
        show subAux (n + 1 + 1) true (c :: rest) = subAux (n + 1) true (c :: rest)
        simp only [subAux, reduceIte]
        cases hm : matchChapter (c :: rest) with
        | none =>
          dsimp only
          rw [ih (c == '\n') rest hrest]
        | some p =>
          obtain ⟨consumed, rest'⟩ := p
          have hr : rest'.length ≤ n :=
            le_trans (matchChapter_rest_length hm) hrest
          dsimp only
          rw [ih _ rest' hr]

theorem subAux_fuel (fuel : Nat) (b : Bool) (s : List Char)
    (h : s.length ≤ fuel) : subAux fuel b s = subAux s.length b s := by
  induction fuel with
  | zero =>
    have : s = [] := List.length_eq_zero.mp (Nat.le_zero.mp h)
    subst this; rfl
  | succ n ih =>
    rcases Nat.lt_or_ge s.length (n + 1) with hlt | hge
    · have hle : s.length ≤ n := by omega
      rw [subAux_fuel_succ n b s hle, ih hle]
    · have : s.length = n + 1 := by omega
      rw [this]

theorem normalizeHeaders_eq_normGo (s : List Char) :
    normalizeHeaders s = normGo true s := rfl

theorem normGo_nil (b : Bool) : normGo b [] = [] := rfl

theorem normGo_cons_not_start (c : Char) (rest : List Char) :
    normGo false (c :: rest) = c :: normGo (c == '\n') rest := by
  show subAux (rest.length + 1) false (c :: rest) = _
  simp only [subAux, reduceIte]
  rfl

theorem normGo_cons_start_none {c : Char} {rest : List Char}
    (h : matchChapter (c :: rest) = none) :
    normGo true (c :: rest) = c :: normGo (c == '\n') rest := by
  show subAux (rest.length + 1) true (c :: rest) = _
  simp only [subAux, reduceIte, h]
  rfl

theorem normGo_cons_start_some {c : Char} {rest consumed rest' : List Char}
    (h : matchChapter (c :: rest) = some (consumed, rest')) :
    normGo true (c :: rest) =
      '#' :: ' ' :: normGo (consumed.getLast? == some '\n') rest' := by
  show subAux (rest.length + 1) true (c :: rest) = _
  simp only [subAux, reduceIte, h]
  rw [subAux_fuel rest.length _ rest' (matchChapter_rest_length h)]
  rfl

/-! ### Shape lemmas -/

theorem digit_not_space {c : Char} (h : isDigitChar c = true) :
    isSpaceChar c = false := by
  simp only [isDigitChar, Bool.and_eq_true, decide_eq_true_eq] at h
  cases hsp : isSpaceChar c with
  | false => rfl
  | true =>
    simp only [isSpaceChar, Bool.or_eq_true, decide_eq_true_eq] at hsp
    rcases hsp with ((((h1 | h1) | h1) | h1) | h1) | h1 <;> subst h1 <;>
      exact absurd h (by decide)

theorem headNotSpace_dropWhile (l : List Char) :
    headNotSpace (l.dropWhile isSpaceChar) := by
  induction l with
  | nil => trivial
  | cons c t ih =>
    cases hc : isSpaceChar c with
    | true => rw [List.dropWhile_cons_of_pos hc]; exact ih
    | false =>
      rw [List.dropWhile_cons_of_neg (by simp [hc])]
      exact hc

theorem headNotSpace_takeWhile_nil {r : List Char} (hr : headNotSpace r) :
    r.takeWhile isSpaceChar = [] := by
  cases r with
  | nil => rfl
  | cons c t =>
    have hc : isSpaceChar c = false := hr
    exact List.takeWhile_cons_of_neg (by simp [hc])

theorem headNotSpace_dropWhile_self {r : List Char} (hr : headNotSpace r) :
    r.dropWhile isSpaceChar = r := by
  cases r with
  | nil => rfl
  | cons c t =>
    have hc : isSpaceChar c = false := hr
    exact List.dropWhile_cons_of_neg (by simp [hc])

/-- Computation of `matchChapter` on an input of the canonical shape:
it consumes exactly the core and leaves `r`. -/
theorem matchChapter_core (sp1 sp2 ds sp3 r : List Char)
    (hg : goodParts sp1 sp2 ds sp3) (hr : headNotSpace r) :
    matchChapter (chapterCore sp1 sp2 ds sp3 ++ r) =
      some (chapterCore sp1 sp2 ds sp3, r) := by
  obtain ⟨h1, h2, h3, hs1, hs2, hs3, hd⟩ := hg
  have hshape : chapterCore sp1 sp2 ds sp3 ++ r =
      '#' :: (sp1 ++ (chapterLit ++ (sp2 ++ (ds ++ ':' :: (sp3 ++ r))))) := by
    simp [chapterCore]
  have eCt : (chapterLit ++ (sp2 ++ (ds ++ ':' :: (sp3 ++ r)))).takeWhile
      isSpaceChar = [] :=
    List.takeWhile_cons_of_neg (by decide)
  have eCd : (chapterLit ++ (sp2 ++ (ds ++ ':' :: (sp3 ++ r)))).dropWhile
      isSpaceChar = chapterLit ++ (sp2 ++ (ds ++ ':' :: (sp3 ++ r))) :=
    List.dropWhile_cons_of_neg (by decide)
  have e1 : (sp1 ++ (chapterLit ++ (sp2 ++ (ds ++ ':' :: (sp3 ++ r))))).takeWhile
      isSpaceChar = sp1 := by
    rw [List.takeWhile_append_of_pos hs1, eCt, List.append_nil]
  have e2 : (sp1 ++ (chapterLit ++ (sp2 ++ (ds ++ ':' :: (sp3 ++ r))))).dropWhile
      isSpaceChar = chapterLit ++ (sp2 ++ (ds ++ ':' :: (sp3 ++ r))) := by
    rw [List.dropWhile_append_of_pos hs1, eCd]
  have eDt : (ds ++ ':' :: (sp3 ++ r)).takeWhile isDigitChar = ds := by
    rw [List.takeWhile_append_of_pos hd,
      List.takeWhile_cons_of_neg (by decide), List.append_nil]
  have eDd : (ds ++ ':' :: (sp3 ++ r)).dropWhile isDigitChar =
      ':' :: (sp3 ++ r) := by
    rw [List.dropWhile_append_of_pos hd, List.dropWhile_cons_of_neg (by decide)]
  have eDtw : (ds ++ ':' :: (sp3 ++ r)).takeWhile isSpaceChar = [] := by
    cases ds with
    | nil => exact absurd rfl h3
    | cons d ds' =>
      exact List.takeWhile_cons_of_neg
        (by simp [digit_not_space (hd d (by simp))])
  have eDdw : (ds ++ ':' :: (sp3 ++ r)).dropWhile isSpaceChar =
      ds ++ ':' :: (sp3 ++ r) := by
    cases ds with
    | nil => exact absurd rfl h3
    | cons d ds' =>
      exact List.dropWhile_cons_of_neg
        (by simp [digit_not_space (hd d (by simp))])
  have e3 : (sp2 ++ (ds ++ ':' :: (sp3 ++ r))).takeWhile isSpaceChar = sp2 := by
    rw [List.takeWhile_append_of_pos hs2, eDtw, List.append_nil]
  have e4 : (sp2 ++ (ds ++ ':' :: (sp3 ++ r))).dropWhile isSpaceChar =
      ds ++ ':' :: (sp3 ++ r) := by
    rw [List.dropWhile_append_of_pos hs2, eDdw]
  have e7 : (sp3 ++ r).takeWhile isSpaceChar = sp3 := by
    rw [List.takeWhile_append_of_pos hs3, headNotSpace_takeWhile_nil hr,
      List.append_nil]
  have e8 : (sp3 ++ r).dropWhile isSpaceChar = r := by
    rw [List.dropWhile_append_of_pos hs3, headNotSpace_dropWhile_self hr]
  rw [hshape]
  simp only [matchChapter, e1, e2, stripLit_self_append, e3, e4, eDt, eDd,
    e7, e8, if_neg h1, if_neg h2, if_neg h3]
  simp [chapterCore]

/-- Decomposition of a successful match: the consumed region has the
canonical shape, the input splits as consumed ++ rest, and the rest does
not begin with whitespace (the trailing run is maximal). -/
theorem matchChapter_some_shape {s consumed r : List Char}
    (h : matchChapter s = some (consumed, r)) :
    ∃ sp1 sp2 ds sp3, goodParts sp1 sp2 ds sp3 ∧
      consumed = chapterCore sp1 sp2 ds sp3 ∧ s = consumed ++ r ∧
      headNotSpace r := by
  cases s with
  | nil => simp [matchChapter] at h
  | cons c rest =>
    by_cases hc : c = '#'
    · subst hc
      simp only [matchChapter] at h
      by_cases h1 : rest.takeWhile isSpaceChar = []
      · simp [h1] at h
      · simp only [h1, reduceIte] at h
        cases hst : stripLit chapterLit (rest.dropWhile isSpaceChar) with
        | none => simp [hst] at h
        | some r3 =>
          simp only [hst] at h
          by_cases h2 : r3.takeWhile isSpaceChar = []
          · simp [h2] at h
          · simp only [h2, reduceIte] at h
            by_cases h3 : (r3.dropWhile isSpaceChar).takeWhile isDigitChar = []
            · simp [h3] at h
            · simp only [h3, reduceIte] at h
              cases h5 : (r3.dropWhile isSpaceChar).dropWhile isDigitChar with
              | nil => simp [h5] at h
              | cons x r6 =>
                by_cases hx : x = ':'
                · subst hx
                  simp only [h5, Option.some.injEq, Prod.mk.injEq] at h
                  obtain ⟨hcons, hrr⟩ := h
                  refine ⟨rest.takeWhile isSpaceChar, r3.takeWhile isSpaceChar,
                    (r3.dropWhile isSpaceChar).takeWhile isDigitChar,
                    r6.takeWhile isSpaceChar, ⟨h1, h2, h3, ?_, ?_, ?_, ?_⟩,
                    ?_, ?_, ?_⟩
                  · exact fun a ha => List.mem_takeWhile_imp ha
                  · exact fun a ha => List.mem_takeWhile_imp ha
                  · exact fun a ha => List.mem_takeWhile_imp ha
                  · exact fun a ha => List.mem_takeWhile_imp ha
                  · rw [← hcons]; rfl
                  · -- reconstruct the input
                    rw [← hcons, ← hrr]
                    have d1 : rest = rest.takeWhile isSpaceChar ++
                        rest.dropWhile isSpaceChar :=
                      (List.takeWhile_append_dropWhile _ _).symm
                    have d2 : rest.dropWhile isSpaceChar = chapterLit ++ r3 :=
                      stripLit_eq_some hst
                    have d3 : r3 = r3.takeWhile isSpaceChar ++
                        r3.dropWhile isSpaceChar :=
                      (List.takeWhile_append_dropWhile _ _).symm
                    have d4 : r3.dropWhile isSpaceChar =
                        (r3.dropWhile isSpaceChar).takeWhile isDigitChar ++
                          ':' :: r6 := by
                      conv_lhs => rw [← List.takeWhile_append_dropWhile
                        isDigitChar (r3.dropWhile isSpaceChar)]
                      rw [h5]
                    have d5 : r6 = r6.takeWhile isSpaceChar ++
                        r6.dropWhile isSpaceChar :=
                      (List.takeWhile_append_dropWhile _ _).symm
                    conv_lhs => rw [d1, d2, d3, d4, d5]
                    simp
                  · rw [← hrr]; exact headNotSpace_dropWhile r6
                · simp [h5, hx] at h
    · simp [matchChapter, hc] at h

/-- If the pattern matches at the head of `l`, it still matches (possibly
consuming further) when `l` is extended on the right. -/
theorem matchChapter_extend {l consumed r : List Char} (ext : List Char)
    (h : matchChapter l = some (consumed, r)) :
    (matchChapter (l ++ ext)).isSome = true := by
  obtain ⟨sp1, sp2, ds, sp3, hg, hcons, hs, hr⟩ := matchChapter_some_shape h
  subst hcons
  cases r with
  | nil =>
    rw [List.append_nil] at hs
    subst hs
    have hg' : goodParts sp1 sp2 ds (sp3 ++ ext.takeWhile isSpaceChar) := by
      obtain ⟨h1, h2, h3, hs1, hs2, hs3, hd⟩ := hg
      refine ⟨h1, h2, h3, hs1, hs2, ?_, hd⟩
      intro a ha
      rcases List.mem_append.mp ha with ha | ha
      · exact hs3 a ha
      · exact List.mem_takeWhile_imp ha
    have heq : chapterCore sp1 sp2 ds sp3 ++ ext =
        chapterCore sp1 sp2 ds (sp3 ++ ext.takeWhile isSpaceChar) ++
          ext.dropWhile isSpaceChar := by
      simp [chapterCore, List.append_assoc]
    rw [heq, matchChapter_core _ _ _ _ _ hg' (headNotSpace_dropWhile ext)]
    rfl
  | cons c0 t =>
    subst hs
    have hr' : headNotSpace ((c0 :: t) ++ ext) := hr
    rw [List.append_assoc,
      matchChapter_core _ _ _ _ _ hg hr']
    rfl

/-- Splitting an append equation at a character absent from the left part. -/
theorem split_at_absent {c r' l rest : List Char} {x : Char}
    (h : c ++ r' = l ++ x :: rest) (hc : x ∉ c) :
    ∃ m, l = c ++ m ∧ r' = m ++ x :: rest := by
  induction c generalizing l with
  | nil => exact ⟨l, by simp, by simpa using h⟩
  | cons y c' ih =>
    cases l with
    | nil =>
      simp only [List.nil_append, List.cons_append, List.cons.injEq] at h
      exact absurd (show x ∈ y :: c' by simp [h.1]) hc
    | cons z l' =>
      simp only [List.cons_append, List.cons.injEq] at h
      obtain ⟨hyz, htail⟩ := h
      obtain ⟨m, h1, h2⟩ := ih htail (fun hin => hc (List.mem_cons_of_mem y hin))
      exact ⟨m, by subst hyz; simp [h1], h2⟩

/-- When a match on `l ++ '\n' :: rest` stays inside the first line, the
same region matches in `l` alone, with a nonempty remainder. -/
theorem matchChapter_restrict {l rest consumed r' : List Char}
    (hbig : matchChapter (l ++ '\n' :: rest) = some (consumed, r'))
    (hnc : ('\n' : Char) ∉ consumed) :
    ∃ m, l = consumed ++ m ∧ r' = m ++ '\n' :: rest ∧
      matchChapter l = some (consumed, m) ∧ m ≠ [] := by
  obtain ⟨sp1, sp2, ds, sp3, hg, hcons, hs, hr⟩ := matchChapter_some_shape hbig
  obtain ⟨m, hl, hr'⟩ := split_at_absent hs.symm hnc
  have hm : m ≠ [] := by
    intro hme
    subst hme
    rw [List.nil_append] at hr'
    subst hr'
    exact absurd (show isSpaceChar '\n' = false from hr) (by decide)
  refine ⟨m, hl, hr', ?_, hm⟩
  cases m with
  | nil => exact absurd rfl hm
  | cons m0 mt =>
    have hhead : headNotSpace (m0 :: mt) := by
      have : headNotSpace r' := hr
      rw [hr'] at this
      exact this
    rw [hl, hcons, matchChapter_core _ _ _ _ _ hg hhead]

/-! ### Copy lemmas and the single-line case -/

theorem normGo_false_append {m : List Char} (hm : ('\n' : Char) ∉ m)
    (rest : List Char) : normGo false (m ++ rest) = m ++ normGo false rest := by
  induction m with
  | nil => simp
  | cons c m' ih =>
    have hc : c ≠ '\n' := fun h => hm (h ▸ List.mem_cons_self c m')
    rw [List.cons_append, normGo_cons_not_start]
    have hb : (c == '\n') = false := by simp [hc]
    rw [hb, ih (fun h => hm (List.mem_cons_of_mem c h))]
    rfl

theorem normGo_false_id {m : List Char} (hm : ('\n' : Char) ∉ m) :
    normGo false m = m := by
  have h := normGo_false_append hm []
  simpa [normGo_nil] using h

theorem normGo_false_newline (rest : List Char) :
    normGo false ('\n' :: rest) = '\n' :: normGo true rest := by
  rw [normGo_cons_not_start]
  norm_num

/-- On a single line, the substitution is exactly the per-line rewrite. -/
theorem normGo_single_line {l : List Char} (hl : ('\n' : Char) ∉ l) :
    normGo true l = lineNorm l := by
  cases hm : matchChapter l with
  | none =>
    cases l with
    | nil => simp [normGo_nil, lineNorm, hm]
    | cons c rest =>
      rw [normGo_cons_start_none hm]
      have hc : c ≠ '\n' := fun h => hl (h ▸ List.mem_cons_self c rest)
      have hb : (c == '\n') = false := by simp [hc]
      rw [hb, normGo_false_id (fun h => hl (List.mem_cons_of_mem c h))]
      simp [lineNorm, hm]
  | some p =>
    obtain ⟨consumed, m⟩ := p
    obtain ⟨sp1, sp2, ds, sp3, hg, hcons, hs, hr⟩ := matchChapter_some_shape hm
    cases l with
    | nil => simp [matchChapter] at hm
    | cons c rest =>
      rw [normGo_cons_start_some hm]
      have hconsl : ('\n' : Char) ∉ consumed := by
        intro hin
        exact hl (hs ▸ List.mem_append.mpr (Or.inl hin))
      have hflag : (consumed.getLast? == some '\n') = false := by
        cases hgl : consumed.getLast? with
        | none => rfl
        | some a =>
          have ha : a ∈ consumed := List.mem_of_getLast?_eq_some hgl
          have : a ≠ '\n' := fun h => hconsl (h ▸ ha)
          simp [this]
      have hmnl : ('\n' : Char) ∉ m := by
        intro hin
        exact hl (hs ▸ List.mem_append.mpr (Or.inr hin))
      rw [hflag, normGo_false_id hmnl]
      simp [lineNorm, hm]

/-- Text with no heading match at any line start is left unchanged. -/
theorem noHeading_normGo_id : ∀ (s : List Char) (b : Bool),
    noHeadingAux b s = true → normGo b s = s := by
  intro s
  induction s with
  | nil => intro b _; exact normGo_nil b
  | cons c rest ih =>
    intro b h
    simp only [noHeadingAux, Bool.and_eq_true] at h
    obtain ⟨h1, h2⟩ := h
    cases b with
    | false => rw [normGo_cons_not_start, ih _ h2]
    | true =>
      have hm : matchChapter (c :: rest) = none := by
        simp only [reduceIte] at h1
        exact Option.isNone_iff_eq_none.mp h1
      rw [normGo_cons_start_none hm, ih _ h2]

/-! ### Claims C1 and C2 -/

/-- C1, counterexample: the heading rewrite is NOT idempotent on every
input.  On `"# Chapter 1:Chapter 2: X"` one application yields
`"# Chapter 2: X"` (the replacement re-exposes a matching heading), and a
second application rewrites again, to `"# X"`. -/
theorem C1_counterexample :
    normalizeHeaders (normalizeHeaders exIdem) ≠ normalizeHeaders exIdem := by
  decide

/-- C1 (amended): the heading rewrite is idempotent on already-normalized
text — text in which the pattern matches at no line start is left
unchanged, so a second application agrees with the first.  (On arbitrary
text idempotence can fail, see the counterexample.) -/
theorem C1_amended (s : List Char) (h : noHeading s = true) :
    normalizeHeaders s = s ∧
      normalizeHeaders (normalizeHeaders s) = normalizeHeaders s := by
  have hid : normalizeHeaders s = s := noHeading_normGo_id s true h
  exact ⟨hid, by rw [hid]; exact hid⟩

/-- Witness for `C1_amended` at concrete already-normalized text. -/
theorem C1_witness :
    noHeading exNormal = true ∧
      (normalizeHeaders exNormal = exNormal ∧
        normalizeHeaders (normalizeHeaders exNormal) =
          normalizeHeaders exNormal) :=
  ⟨by decide, C1_amended exNormal (by decide)⟩

/-- C2, counterexample: a line with extra whitespace variation (two
spaces after the marker, two after the keyword, a two-digit ordinal,
three after the colon) is NOT left unchanged — the regex `\s+`/`\s*`
components accept it and the line is rewritten to `"# Title"`. -/
theorem C2_counterexample :
    normalizeHeaders exWhite ≠ exWhite ∧
      normalizeHeaders exWhite = ("# Title").toList := by
  constructor
  · decide
  · decide

/-- C2 (amended): on a single line the transform rewrites the line iff it
matches the pattern `#`, whitespace, `Chapter`, whitespace, digits, `:`
(each whitespace run of any positive length, plus optional trailing
whitespace); a non-matching line — e.g. whitespace before the marker or
before the colon, or a missing colon — is left unchanged, while extra
whitespace inside the allowed runs still matches. -/
theorem C2_amended (l : List Char) (h : ('\n' : Char) ∉ l) :
    normalizeHeaders l = lineNorm l :=
  normGo_single_line h

/-- Witness for `C2_amended`: the rejected form `"# Chapter 1 : T"`
(whitespace before the colon) does not match and is left unchanged. -/
theorem C2_witness :
    (('\n' : Char) ∉ exRejected) ∧
      normalizeHeaders exRejected = lineNorm exRejected ∧
        lineNorm exRejected = exRejected :=
  ⟨by decide, C2_amended exRejected (by decide), by decide⟩

/-! ### The cross-line-free scan -/

theorem clfAux_fuel_succ (fuel : Nat) :
    ∀ (b : Bool) (s : List Char), s.length ≤ fuel →
      clfAux (fuel + 1) b s = clfAux fuel b s := by
  induction fuel with
  | zero =>
    intro b s hs
    have : s = [] := List.length_eq_zero.mp (Nat.le_zero.mp hs)
    subst this
    rfl
  | succ n ih =>
    intro b s hs
    cases s with
    | nil => rfl
    | cons c rest =>
      have hrest : rest.length ≤ n := by
        simp only [List.length_cons] at hs; omega
      cases b with
      | false =>
        show clfAux (n + 1 + 1) false (c :: rest) = clfAux (n + 1) false (c :: rest)
        simp only [clfAux, Bool.false_eq_true, reduceIte]
        rw [ih (c == '\n') rest hrest]
      | true =>
        show clfAux (n + 1 + 1) true (c :: rest) = clfAux (n + 1) true (c :: rest)
        simp only [clfAux, reduceIte]
        cases hm : matchChapter (c :: rest) with
        | none =>
          dsimp only
          rw [ih (c == '\n') rest hrest]
        | some p =>
          obtain ⟨consumed, rest'⟩ := p
          have hr : rest'.length ≤ n :=
            le_trans (matchChapter_rest_length hm) hrest
          dsimp only
          rw [ih _ rest' hr]

theorem clfAux_fuel (fuel : Nat) (b : Bool) (s : List Char)
    (h : s.length ≤ fuel) : clfAux fuel b s = clfAux s.length b s := by
  induction fuel with
  | zero =>
    have : s = [] := List.length_eq_zero.mp (Nat.le_zero.mp h)
    subst this; rfl
  | succ n ih =>
    rcases Nat.lt_or_ge s.length (n + 1) with hlt | hge
    · have hle : s.length ≤ n := by omega
      rw [clfAux_fuel_succ n b s hle, ih hle]
    · have : s.length = n + 1 := by omega
      rw [this]

theorem clfGo_cons_not_start (c : Char) (rest : List Char) :
    clfGo false (c :: rest) = clfGo (c == '\n') rest := by
  show clfAux (rest.length + 1) false (c :: rest) = _
  simp only [clfAux, reduceIte]
  rfl

theorem clfGo_cons_start_none {c : Char} {rest : List Char}
    (h : matchChapter (c :: rest) = none) :
    clfGo true (c :: rest) = clfGo (c == '\n') rest := by
  show clfAux (rest.length + 1) true (c :: rest) = _
  simp only [clfAux, reduceIte, h]
  rfl

theorem clfGo_cons_start_some {c : Char} {rest consumed rest' : List Char}
    (h : matchChapter (c :: rest) = some (consumed, rest')) :
    clfGo true (c :: rest) =
      (!(decide (('\n' : Char) ∈ consumed)) &&
        clfGo (consumed.getLast? == some '\n') rest') := by
  show clfAux (rest.length + 1) true (c :: rest) = _
  simp only [clfAux, reduceIte, h]
  rw [clfAux_fuel rest.length _ rest' (matchChapter_rest_length h)]
  rfl

theorem clfGo_false_append {m : List Char} (hm : ('\n' : Char) ∉ m)
    (rest : List Char) : clfGo false (m ++ rest) = clfGo false rest := by
  induction m with
  | nil => simp
  | cons c m' ih =>
    have hc : c ≠ '\n' := fun h => hm (h ▸ List.mem_cons_self c m')
    have hb : (c == '\n') = false := by simp [hc]
    rw [List.cons_append, clfGo_cons_not_start, hb,
      ih (fun h => hm (List.mem_cons_of_mem c h))]

theorem clfGo_false_newline (rest : List Char) :
    clfGo false ('\n' :: rest) = clfGo true rest := by
  rw [clfGo_cons_not_start]
  norm_num

/-! ### Lines -/

theorem splitOnChar_ne_nil (sep : Char) (s : List Char) :
    splitOnChar sep s ≠ [] := by
  cases s with
  | nil => simp [splitOnChar]
  | cons c rest =>
    by_cases hc : c = sep
    · simp [splitOnChar, hc]
    · simp only [splitOnChar, if_neg hc]
      cases splitOnChar sep rest <;> simp

theorem splitOnChar_no_sep {sep : Char} {s : List Char} (h : sep ∉ s) :
    splitOnChar sep s = [s] := by
  induction s with
  | nil => rfl
  | cons c rest ih =>
    have hc : ¬ c = sep := fun he => h (he ▸ List.mem_cons_self c rest)
    simp only [splitOnChar, if_neg hc,
      ih (fun hin => h (List.mem_cons_of_mem c hin))]

theorem splitOnChar_append {sep : Char} {l : List Char}
    (h : sep ∉ l) (t : List Char) :
    splitOnChar sep (l ++ sep :: t) = l :: splitOnChar sep t := by
  induction l with
  | nil => simp [splitOnChar]
  | cons c l' ih =>
    have hc : ¬ c = sep := fun he => h (he ▸ List.mem_cons_self c l')
    have ih' := ih (fun hin => h (List.mem_cons_of_mem c hin))
    show splitOnChar sep (c :: (l' ++ sep :: t)) = (c :: l') :: splitOnChar sep t
    simp only [splitOnChar, if_neg hc, List.append_eq]
    rw [ih']

theorem joinWithChar_cons (sep : Char) (x : List Char)
    {ls : List (List Char)} (h : ls ≠ []) :
    joinWithChar sep (x :: ls) = x ++ sep :: joinWithChar sep ls := by
  cases ls with
  | nil => exact absurd rfl h
  | cons y ys => rfl

theorem exists_first_line {s : List Char} (h : ('\n' : Char) ∈ s) :
    ∃ l t, s = l ++ '\n' :: t ∧ ('\n' : Char) ∉ l := by
  induction s with
  | nil => cases h
  | cons c cs ih =>
    by_cases hc : c = '\n'
    · exact ⟨[], cs, by simp [hc], by simp⟩
    · have hmem : ('\n' : Char) ∈ cs := by
        rcases List.mem_cons.mp h with h1 | h1
        · exact absurd h1.symm hc
        · exact h1
      obtain ⟨l, t, h1, h2⟩ := ih hmem
      refine ⟨c :: l, t, by simp [h1], ?_⟩
      intro hin
      rcases List.mem_cons.mp hin with h3 | h3
      · exact hc h3.symm
      · exact h2 h3

theorem perLineNorm_single {s : List Char} (h : ('\n' : Char) ∉ s) :
    perLineNorm s = lineNorm s := by
  unfold perLineNorm splitLines joinLines
  rw [splitOnChar_no_sep h]
  rfl

theorem perLineNorm_cons {l : List Char} (h : ('\n' : Char) ∉ l)
    (t : List Char) :
    perLineNorm (l ++ '\n' :: t) = lineNorm l ++ '\n' :: perLineNorm t := by
  unfold perLineNorm splitLines joinLines
  rw [splitOnChar_append h, List.map_cons,
    joinWithChar_cons _ _ (by simp [splitOnChar_ne_nil])]

/-! ### First-line decomposition of the scan -/

theorem normGo_first_line {l rest : List Char} (hnl : ('\n' : Char) ∉ l)
    (hclf : clfGo true (l ++ '\n' :: rest) = true) :
    normGo true (l ++ '\n' :: rest) = lineNorm l ++ '\n' :: normGo true rest ∧
      clfGo true rest = true := by
  cases hm : matchChapter (l ++ '\n' :: rest) with
  | none =>
    have hml : matchChapter l = none := by
      cases hml : matchChapter l with
      | none => rfl
      | some p =>
        obtain ⟨cns, r⟩ := p
        have hext := matchChapter_extend ('\n' :: rest) hml
        rw [hm] at hext
        simp at hext
    have hline : lineNorm l = l := by simp [lineNorm, hml]
    cases l with
    | nil =>
      constructor
      · rw [List.nil_append, normGo_cons_start_none hm]
        simp [hline]
      · rw [List.nil_append, clfGo_cons_start_none hm] at hclf
        simpa using hclf
    | cons c l' =>
      have hmB : matchChapter (c :: (l' ++ '\n' :: rest)) = none := hm
      have hc : c ≠ '\n' := fun h => hnl (h ▸ List.mem_cons_self c l')
      have hb : (c == '\n') = false := by simp [hc]
      have hl' : ('\n' : Char) ∉ l' := fun h => hnl (List.mem_cons_of_mem c h)
      constructor
      · rw [List.cons_append, normGo_cons_start_none hmB, hb,
          normGo_false_append hl', normGo_false_newline, hline]
        simp
      · have hclfB : clfGo true (c :: (l' ++ '\n' :: rest)) = true := hclf
        rw [clfGo_cons_start_none hmB, hb,
          clfGo_false_append hl', clfGo_false_newline] at hclfB
        exact hclfB
  | some p =>
    obtain ⟨consumed, r'⟩ := p
    cases l with
    | nil =>
      rw [List.nil_append] at hm
      simp [matchChapter] at hm
    | cons c l' =>
      have hmB : matchChapter (c :: (l' ++ '\n' :: rest)) = some (consumed, r') :=
        hm
      have hclfB : clfGo true (c :: (l' ++ '\n' :: rest)) = true := hclf
      rw [clfGo_cons_start_some hmB, Bool.and_eq_true] at hclfB
      obtain ⟨hclf1, hclf2⟩ := hclfB
      have hnc : ('\n' : Char) ∉ consumed := by simpa using hclf1
      obtain ⟨m, hlm, hr', hml, hmne⟩ := matchChapter_restrict hm hnc
      have hflag : (consumed.getLast? == some '\n') = false := by
        cases hgl : consumed.getLast? with
        | none => rfl
        | some a =>
          have ha : a ∈ consumed := List.mem_of_getLast?_eq_some hgl
          have hna : a ≠ '\n' := fun h => hnc (h ▸ ha)
          simp [hna]
      have hmnl : ('\n' : Char) ∉ m := by
        intro hin
        apply hnl
        rw [show c :: l' = consumed ++ m from hlm]
        exact List.mem_append.mpr (Or.inr hin)
      constructor
      · rw [List.cons_append, normGo_cons_start_some hmB, hflag, hr',
          normGo_false_append hmnl, normGo_false_newline]
        simp [lineNorm, hml]
      · rw [hflag] at hclf2
        rw [hr', clfGo_false_append hmnl, clfGo_false_newline] at hclf2
        exact hclf2

/-- When no match crosses a line break, the substitution is the line-wise
transform. -/
theorem normGo_perLine : ∀ (n : Nat) (s : List Char), s.length ≤ n →
    clfGo true s = true → normGo true s = perLineNorm s := by
  intro n
  induction n with
  | zero =>
    intro s hs _
    have : s = [] := List.length_eq_zero.mp (Nat.le_zero.mp hs)
    subst this
    rfl
  | succ n ih =>
    intro s hs hclf
    by_cases hn : ('\n' : Char) ∈ s
    · obtain ⟨l, t, rfl, hnl⟩ := exists_first_line hn
      obtain ⟨h1, h2⟩ := normGo_first_line hnl hclf
      have hlen : t.length ≤ n := by
        simp only [List.length_append, List.length_cons] at hs
        omega
      rw [h1, ih t hlen h2, perLineNorm_cons hnl]
    · rw [normGo_single_line hn, perLineNorm_single hn]

/-! ### Claim C3 -/

/-- C3, counterexample: the transform is NOT per-line.  On
`"# Chapter 1:\nBody"` the trailing `\s*` of the match consumes the line
break, so the two input lines merge into the single output line
`"# Body"`, while the per-line reading would give `"# \nBody"`. -/
theorem C3_counterexample :
    normalizeHeaders exMerge ≠ perLineNorm exMerge ∧
      normalizeHeaders exMerge = ("# Body").toList ∧
      perLineNorm exMerge = ("# \nBody").toList := by
  refine ⟨by decide, by decide, by decide⟩

/-- C3 (amended): on every input in which no matched region spans a line
break (`crossLineFree`), the transform is per-line — every non-matching
line appears unchanged in the output and each matching line is rewritten
in place to the heading marker plus its title text.  (When a matched
region does span a line break, lines can merge — see the
counterexample.) -/
theorem C3_amended (s : List Char) (h : crossLineFree s = true) :
    normalizeHeaders s = perLineNorm s :=
  normGo_perLine s.length s le_rfl h

/-- Witness for `C3_amended` on multi-line text with two headings and
body lines. -/
theorem C3_witness :
    crossLineFree exMultiLine = true ∧
      normalizeHeaders exMultiLine = perLineNorm exMultiLine :=
  ⟨by decide, C3_amended exMultiLine (by decide)⟩

/-! ### Substrings, path segments and path injectivity -/

theorem stripLit_isSome_iff {pat s : List Char} :
    (stripLit pat s).isSome = true ↔ ∃ t, s = pat ++ t := by
  constructor
  · intro h
    cases hst : stripLit pat s with
    | none => rw [hst] at h; simp at h
    | some t => exact ⟨t, stripLit_eq_some hst⟩
  · rintro ⟨t, rfl⟩
    rw [stripLit_self_append]
    rfl

theorem hasSub_iff {pat s : List Char} :
    hasSub pat s = true ↔ ∃ a b, s = a ++ pat ++ b := by
  induction s with
  | nil =>
    show (stripLit pat []).isSome = true ↔ _
    rw [stripLit_isSome_iff]
    constructor
    · rintro ⟨t, ht⟩
      exact ⟨[], t, by simpa using ht⟩
    · rintro ⟨a, b, hab⟩
      have h0 : a ++ (pat ++ b) = [] := by simpa using hab.symm
      rcases List.append_eq_nil.mp h0 with ⟨_, h2⟩
      rcases List.append_eq_nil.mp h2 with ⟨hp, hb⟩
      exact ⟨b, by simp [hp, hb]⟩
  | cons c t ih =>
    show ((stripLit pat (c :: t)).isSome || hasSub pat t) = true ↔ _
    rw [Bool.or_eq_true, stripLit_isSome_iff, ih]
    constructor
    · rintro (⟨u, hu⟩ | ⟨a, b, hab⟩)
      · exact ⟨[], u, by simpa using hu⟩
      · exact ⟨c :: a, b, by simp [hab]⟩
    · rintro ⟨a, b, hab⟩
      cases a with
      | nil => exact Or.inl ⟨b, by simpa using hab⟩
      | cons x a' =>
        right
        simp only [List.cons_append, List.cons.injEq] at hab
        exact ⟨a', b, hab.2⟩

theorem joinWithChar_splitOnChar (sep : Char) (s : List Char) :
    joinWithChar sep (splitOnChar sep s) = s := by
  induction s with
  | nil => rfl
  | cons c rest ih =>
    by_cases hc : c = sep
    · have hstep : splitOnChar sep (c :: rest) = [] :: splitOnChar sep rest := by
        simp only [splitOnChar, if_pos hc]
      rw [hstep, joinWithChar_cons _ _ (splitOnChar_ne_nil _ _), ih]
      simp [hc]
    · simp only [splitOnChar, if_neg hc]
      cases hsp : splitOnChar sep rest with
      | nil => exact absurd hsp (splitOnChar_ne_nil _ _)
      | cons l ls =>
        rw [hsp] at ih
        cases ls with
        | nil =>
          show joinWithChar sep [c :: l] = c :: rest
          have hl : l = rest := ih
          simp [joinWithChar, hl]
        | cons l2 ls2 =>
          rw [joinWithChar_cons _ _ (by simp)]
          rw [joinWithChar_cons _ _ (by simp)] at ih
          simp [← ih]

theorem mem_join_decomp {sep : Char} {seg : List Char} :
    ∀ {parts : List (List Char)}, seg ∈ parts →
      ∃ a b, joinWithChar sep parts = a ++ seg ++ b := by
  intro parts
  induction parts with
  | nil => intro h; cases h
  | cons x ps ih =>
    intro h
    rcases List.mem_cons.mp h with h1 | h1
    · subst h1
      cases ps with
      | nil => exact ⟨[], [], by simp [joinWithChar]⟩
      | cons y ys =>
        exact ⟨[], sep :: joinWithChar sep (y :: ys),
          by rw [joinWithChar_cons _ _ (by simp)]; simp⟩
    · obtain ⟨a, b, hab⟩ := ih h1
      cases ps with
      | nil => cases h1
      | cons y ys =>
        refine ⟨x ++ sep :: a, b, ?_⟩
        rw [joinWithChar_cons _ _ (by simp), hab]
        simp

/-- A path segment is in particular a substring of the path. -/
theorem seg_mem_hasSub {sep : Char} {seg s : List Char}
    (h : seg ∈ splitOnChar sep s) : hasSub seg s = true := by
  obtain ⟨a, b, hab⟩ := @mem_join_decomp sep seg (splitOnChar sep s) h
  rw [joinWithChar_splitOnChar] at hab
  exact hasSub_iff.mpr ⟨a, b, hab⟩

theorem append_sep_inj {x : Char} : ∀ {a b c d : List Char},
    a ++ x :: b = c ++ x :: d → x ∉ a → x ∉ c → a = c ∧ b = d := by
  intro a
  induction a with
  | nil =>
    intro b c d h _ hc
    cases c with
    | nil => simpa using h
    | cons y c' =>
      simp only [List.nil_append, List.cons_append, List.cons.injEq] at h
      exact absurd (show x ∈ y :: c' by simp [h.1.symm]) hc
  | cons z a' ih =>
    intro b c d h ha hc
    cases c with
    | nil =>
      simp only [List.cons_append, List.nil_append, List.cons.injEq] at h
      exact absurd (show x ∈ z :: a' by simp [h.1]) ha
    | cons y c' =>
      simp only [List.cons_append, List.cons.injEq] at h
      obtain ⟨h1, h2⟩ := ih h.2 (fun hin => ha (List.mem_cons_of_mem z hin))
        (fun hin => hc (List.mem_cons_of_mem y hin))
      exact ⟨by rw [h.1, h1], h2⟩

theorem joinPath_inj {r1 f1 r2 f2 : List Char}
    (h : joinPath r1 f1 = joinPath r2 f2)
    (h1 : ('/' : Char) ∉ f1) (h2 : ('/' : Char) ∉ f2) :
    r1 = r2 ∧ f1 = f2 := by
  have hrev : f1.reverse ++ '/' :: r1.reverse =
      f2.reverse ++ '/' :: r2.reverse := by
    have hr := congrArg List.reverse h
    simpa [joinPath, List.reverse_append] using hr
  obtain ⟨hf, hr⟩ := append_sep_inj hrev
    (fun hin => h1 (List.mem_reverse.mp hin))
    (fun hin => h2 (List.mem_reverse.mp hin))
  exact ⟨List.reverse_inj.mp hr, List.reverse_inj.mp hf⟩

/-! ### Discovery -/

theorem mem_collectFiles {walk : List (List Char × List (List Char))}
    {p : List Char} :
    p ∈ collectFiles walk ↔
      ∃ root fns fn, (root, fns) ∈ walk ∧ hasSub buildDirName root = false ∧
        fn ∈ fns ∧ eligibleFile fn = true ∧ p = joinPath root fn := by
  constructor
  · intro h
    simp only [collectFiles, List.mem_flatMap, List.mem_filter,
      List.mem_map] at h
    obtain ⟨e, ⟨hin, hexcl⟩, fn, ⟨hfn, helig⟩, heq⟩ := h
    exact ⟨e.1, e.2, fn, hin, by simpa using hexcl, hfn, helig, heq.symm⟩
  · rintro ⟨root, fns, fn, hin, hexcl, hfn, helig, rfl⟩
    simp only [collectFiles, List.mem_flatMap, List.mem_filter, List.mem_map]
    exact ⟨(root, fns), ⟨hin, by simp [hexcl]⟩, fn, ⟨hfn, helig⟩, rfl⟩

theorem mem_get_markdown_files {walk : List (List Char × List (List Char))}
    {p : List Char} :
    p ∈ get_markdown_files walk ↔ p ∈ collectFiles walk :=
  (List.perm_insertionSort _ _).mem_iff

/-! ### Claim C4 -/

/-- C4: discovery is exactly the eligible files (name ends in the
designated extension, not the table-of-contents file, directory not
excluded), sorted in ascending full-path lexicographic order; the result
is determined by the collected set alone, independently of the
filesystem's iteration order. -/
theorem C4_discovery (walk walk' : List (List Char × List (List Char)))
    (hperm : (collectFiles walk).Perm (collectFiles walk')) :
    List.Sorted (· ≤ ·) (get_markdown_files walk) ∧
      (∀ p, p ∈ get_markdown_files walk ↔
        ∃ root fns fn, (root, fns) ∈ walk ∧ hasSub buildDirName root = false ∧
          fn ∈ fns ∧ eligibleFile fn = true ∧ p = joinPath root fn) ∧
      get_markdown_files walk = get_markdown_files walk' := by
  refine ⟨List.sorted_insertionSort _ _, ?_, ?_⟩
  · intro p
    rw [mem_get_markdown_files]
    exact mem_collectFiles
  · exact List.eq_of_perm_of_sorted
      ((List.perm_insertionSort _ _).trans
        (hperm.trans (List.perm_insertionSort _ _).symm))
      (List.sorted_insertionSort _ _) (List.sorted_insertionSort _ _)

/-- Witness for `C4_discovery`: two iteration orders of the same tree
yield the same discovered list. -/
theorem C4_witness : get_markdown_files exWalk1 = get_markdown_files exWalk2 :=
  (C4_discovery exWalk1 exWalk2 (by decide)).2.2

/-! ### Claim C5 -/

/-- C5: exclusion is absolute — no file of a directory having
`latex_build` as a path segment (at any depth) and no file named
`TABLE_OF_CONTENTS.md` (under any directory) ever appears in the
discovered list.  (Filenames are slash-free, as `os.walk` yields them.) -/
theorem C5_exclusion (walk : List (List Char × List (List Char)))
    (hwf : ∀ e ∈ walk, ∀ fn ∈ e.2, ('/' : Char) ∉ fn)
    (root fn : List Char) (hfn : ('/' : Char) ∉ fn)
    (h : buildDirName ∈ splitOnChar '/' root ∨ fn = tocFilename) :
    joinPath root fn ∉ get_markdown_files walk := by
  intro hmem
  rw [mem_get_markdown_files] at hmem
  obtain ⟨root', fns', fn', hin, hexcl, hfn', helig, heq⟩ :=
    mem_collectFiles.mp hmem
  have hfn'ns : ('/' : Char) ∉ fn' := hwf (root', fns') hin fn' hfn'
  obtain ⟨hr, hf⟩ := joinPath_inj heq hfn hfn'ns
  subst hr
  subst hf
  rcases h with h | h
  · rw [seg_mem_hasSub h] at hexcl
    cases hexcl
  · subst h
    simp [eligibleFile] at helig

/-- Witness for `C5_exclusion`: a file under the output directory and a
table-of-contents file are both absent from the discovered list. -/
theorem C5_witness :
    joinPath (("/home/msi/Desktop/book/latex_build").toList) (("x.md").toList) ∉
        get_markdown_files exWalk1 ∧
      joinPath (("/home/msi/Desktop/book/a").toList) tocFilename ∉
        get_markdown_files exWalk1 :=
  ⟨C5_exclusion exWalk1 (by decide) _ _ (by decide) (Or.inl (by decide)),
    C5_exclusion exWalk1 (by decide) _ _ (by decide) (Or.inr rfl)⟩

/-! ### Claim C10 -/

/-- C10: the exclusion is a substring test on the walked directory path:
every file whose directory path contains `latex_build` anywhere as a
substring — not only as a path segment — is excluded from discovery. -/
theorem C10_substring_exclusion (walk : List (List Char × List (List Char)))
    (hwf : ∀ e ∈ walk, ∀ fn ∈ e.2, ('/' : Char) ∉ fn)
    (root fn : List Char) (hfn : ('/' : Char) ∉ fn)
    (h : hasSub buildDirName root = true) :
    joinPath root fn ∉ get_markdown_files walk := by
  intro hmem
  rw [mem_get_markdown_files] at hmem
  obtain ⟨root', fns', fn', hin, hexcl, hfn', helig, heq⟩ :=
    mem_collectFiles.mp hmem
  have hfn'ns : ('/' : Char) ∉ fn' := hwf (root', fns') hin fn' hfn'
  obtain ⟨hr, hf⟩ := joinPath_inj heq hfn hfn'ns
  subst hr
  rw [h] at hexcl
  cases hexcl

/-- Witness for `C10_substring_exclusion`: the eligible file
`y.md` of the sibling directory `my_latex_build` — which is not under
the output directory — is nevertheless excluded. -/
theorem C10_witness :
    joinPath (("/home/msi/Desktop/book/my_latex_build").toList)
        (("y.md").toList) ∉ get_markdown_files exWalk3 :=
  C10_substring_exclusion exWalk3 (by decide) _ _ (by decide) (by decide)

/-! ### Basenames, dirnames and replacement -/

theorem notSlash_of_not_mem {fn : List Char} (h : ('/' : Char) ∉ fn) :
    ∀ a ∈ fn.reverse, (!(a == '/')) = true := by
  intro a ha
  have hmem : a ∈ fn := List.mem_reverse.mp ha
  have hne : a ≠ '/' := fun he => h (he ▸ hmem)
  simp [hne]

theorem basenameL_join {root fn : List Char} (hfn : ('/' : Char) ∉ fn) :
    basenameL (joinPath root fn) = fn := by
  unfold basenameL joinPath
  rw [show (root ++ '/' :: fn).reverse = fn.reverse ++ '/' :: root.reverse by
    simp]
  rw [List.takeWhile_append_of_pos (notSlash_of_not_mem hfn),
    List.takeWhile_cons_of_neg (by simp)]
  simp

theorem dirnameL_join {ys : List Char} {a : Char} (ha : a ≠ '/')
    {fn : List Char} (hfn : ('/' : Char) ∉ fn) :
    dirnameL (joinPath (ys ++ [a]) fn) = ys ++ [a] := by
  unfold dirnameL joinPath
  rw [show ((ys ++ [a]) ++ '/' :: fn).reverse =
      fn.reverse ++ '/' :: (a :: ys.reverse) by simp]
  rw [List.dropWhile_append_of_pos (notSlash_of_not_mem hfn),
    List.dropWhile_cons_of_neg (by simp)]
  rw [show ('/' :: (a :: ys.reverse)).reverse = (ys ++ [a]) ++ [('/' : Char)] by
    simp]
  unfold dirnameCore
  rw [if_neg (by simp)]
  rw [if_neg (fun hall => ha (by simpa using List.all_eq_true.mp hall a (by simp)))]
  unfold stripTrailingSlashes
  rw [show ((ys ++ [a]) ++ [('/' : Char)]).reverse = '/' :: (a :: ys.reverse) by
    simp]
  rw [List.dropWhile_cons_of_pos (by simp),
    List.dropWhile_cons_of_neg (by simp [ha])]
  simp

theorem basenameL_last_ne_nil {ys : List Char} {a : Char} (ha : a ≠ '/') :
    basenameL (ys ++ [a]) ≠ [] := by
  unfold basenameL
  rw [show (ys ++ [a]).reverse = a :: ys.reverse by simp]
  rw [List.takeWhile_cons_of_pos (by simp [ha])]
  simp

theorem pyReplaceAux_nil (fuel : Nat) (pat rep : List Char) :
    pyReplaceAux fuel [] pat rep = [] := by
  cases fuel <;> rfl

/-- When `.md` occurs in `stem ++ ".md"` only as the final extension,
Python's replace-all swaps exactly that extension. -/
theorem pyReplaceAux_single : ∀ (fuel : Nat) (stem : List Char),
    (stem ++ mdExt).length ≤ fuel →
    (∀ i, i < stem.length →
      stripLit mdExt (List.drop i (stem ++ mdExt)) = none) →
    pyReplaceAux fuel (stem ++ mdExt) mdExt texExt = stem ++ texExt := by
  intro fuel
  induction fuel with
  | zero =>
    intro stem hlen _
    simp [mdExt] at hlen
  | succ f ih =>
    intro stem hlen honce
    cases stem with
    | nil =>
      show pyReplaceAux (f + 1) ([] ++ mdExt) mdExt texExt = [] ++ texExt
      rw [List.nil_append, List.nil_append]
      show pyReplaceAux (f + 1) ('.' :: ('m' :: ('d' :: []))) mdExt texExt =
        texExt
      simp only [pyReplaceAux]
      rw [show stripLit mdExt ('.' :: ('m' :: ('d' :: []))) = some [] by rfl]
      dsimp only
      rw [pyReplaceAux_nil]
      simp
    | cons c st =>
      have h0 : stripLit mdExt (c :: (st ++ mdExt)) = none := by
        have := honce 0 (by simp)
        simpa using this
      show pyReplaceAux (f + 1) (c :: (st ++ mdExt)) mdExt texExt =
        c :: (st ++ texExt)
      simp only [pyReplaceAux, h0]
      rw [ih st (by simp at hlen ⊢; omega)
        (fun i hi => by simpa using honce (i + 1) (by simp; omega))]

theorem pyReplace_single {stem : List Char}
    (honce : ∀ i, i < stem.length →
      stripLit mdExt (List.drop i (stem ++ mdExt)) = none) :
    pyReplace (stem ++ mdExt) mdExt texExt = stem ++ texExt :=
  pyReplaceAux_single _ stem le_rfl honce

/-! ### Claim C6 -/

/-- C6, counterexample: the code replaces EVERY occurrence of `.md` in
the basename, not just the final extension.  For the discovered file
`/home/msi/Desktop/book/ch/a.md.md` the code produces `ch_a.tex.tex`,
while the claimed extension-replacement naming gives `ch_a.md.tex`. -/
theorem C6_counterexample :
    outputBaseName exNameMd ≠ specOutputBaseName exNameMd ∧
      outputBaseName exNameMd = ("ch_a.tex.tex").toList ∧
      specOutputBaseName exNameMd = ("ch_a.md.tex").toList :=
  ⟨by decide, by decide, by decide⟩

/-- C6 (amended): for every source file whose basename contains `.md`
only as its final extension, the intermediate name is the basename with
that extension replaced by `.tex`, prefixed by `<parent-directory>_`
except exactly when the parent-directory name equals the source root's
own name (`book`).  In general the code replaces every occurrence of the
`.md` string in the basename. -/
theorem C6_amended (root stem : List Char)
    (hroot : root ≠ []) (hsl : root.getLast? ≠ some '/')
    (hstem : ('/' : Char) ∉ stem)
    (honce : ∀ i, i < stem.length →
      stripLit mdExt (List.drop i (stem ++ mdExt)) = none) :
    outputBaseName (joinPath root (stem ++ mdExt)) =
      if basenameL root = bookName then stem ++ texExt
      else basenameL root ++ '_' :: (stem ++ texExt) := by
  obtain ⟨a, ha⟩ : ∃ a, root.getLast? = some a := by
    cases hg : root.getLast? with
    | none => exact absurd (List.getLast?_eq_none_iff.mp hg) hroot
    | some a => exact ⟨a, rfl⟩
  have hane : a ≠ '/' := fun he => hsl (he ▸ ha)
  obtain ⟨ys, rfl⟩ := List.getLast?_eq_some_iff.mp ha
  have hfn : ('/' : Char) ∉ stem ++ mdExt := by
    intro hin
    rcases List.mem_append.mp hin with hin | hin
    · exact hstem hin
    · simp [mdExt] at hin
  simp only [outputBaseName, basenameL_join hfn, dirnameL_join hane hfn,
    pyReplace_single honce]
  by_cases hb : basenameL (ys ++ [a]) = bookName
  · rw [if_pos hb, if_neg]
    simp [hb]
  · rw [if_neg hb, if_pos ⟨basenameL_last_ne_nil hane, hb⟩]

/-- Witness for `C6_amended`: `a/01.md` becomes `a_01.tex`; `02.md`
directly under the source root becomes bare `02.tex`. -/
theorem C6_witness :
    (outputBaseName (joinPath (("/home/msi/Desktop/book/a").toList)
          ((("01").toList) ++ mdExt)) =
        if basenameL (("/home/msi/Desktop/book/a").toList) = bookName
        then (("01").toList) ++ texExt
        else basenameL (("/home/msi/Desktop/book/a").toList) ++
          '_' :: ((("01").toList) ++ texExt)) ∧
      (outputBaseName (joinPath (("/home/msi/Desktop/book").toList)
          ((("02").toList) ++ mdExt)) =
        if basenameL (("/home/msi/Desktop/book").toList) = bookName
        then (("02").toList) ++ texExt
        else basenameL (("/home/msi/Desktop/book").toList) ++
          '_' :: ((("02").toList) ++ texExt)) :=
  ⟨C6_amended (("/home/msi/Desktop/book/a").toList) (("01").toList)
      (by decide) (by decide) (by decide) (by decide),
    C6_amended (("/home/msi/Desktop/book").toList) (("02").toList)
      (by decide) (by decide) (by decide) (by decide)⟩

/-! ### Claim C7 -/

theorem splitLines_cons_line {l : List Char} (hl : ('\n' : Char) ∉ l)
    (t : List Char) : splitLines (l ++ '\n' :: t) = l :: splitLines t :=
  splitOnChar_append hl t

theorem inputDirLine_no_newline {b : List Char} (hb : ('\n' : Char) ∉ b) :
    ('\n' : Char) ∉ inputDirLine b := by
  intro hin
  simp only [inputDirLine, List.append_assoc, List.mem_append] at hin
  rcases hin with hin | hin | hin
  · exact absurd hin (by decide)
  · exact hb hin
  · simp at hin

theorem splitLines_flatten (tex_files : List (List Char))
    (h : ∀ f ∈ tex_files, ('\n' : Char) ∉ basenameL f) (t : List Char) :
    splitLines
        ((tex_files.map
            (fun f => inputDirLine (basenameL f) ++ [('\n' : Char)])).flatten ++
          t) =
      tex_files.map (fun f => inputDirLine (basenameL f)) ++ splitLines t := by
  induction tex_files with
  | nil => simp
  | cons f fs ih =>
    simp only [List.map_cons, List.flatten_cons, List.append_assoc,
      List.singleton_append, List.cons_append, List.nil_append]
    rw [splitLines_cons_line
      (inputDirLine_no_newline (h f (List.mem_cons_self f fs)))]
    rw [ih (fun g hg => h g (List.mem_cons_of_mem f hg))]

/-- C7: for every ordered list of intermediate files (the empty list
included), the descriptor's lines are, in this fixed order: the
document-class declaration, the preamble inclusion, the begin-document
marker, the title-page inclusion, the table-of-contents directive, the
page break, one inclusion per intermediate file referenced by base name
only in input order, and the end-document marker (followed by the final
newline's empty tail). -/
theorem C7_descriptor (tex_files : List (List Char))
    (h : ∀ f ∈ tex_files, ('\n' : Char) ∉ basenameL f) :
    splitLines (generate_main_tex tex_files) =
      [docClassLine, inputDirLine (basenameL PREAMBLE_PATH), beginDocLine,
        inputDirLine (basenameL TITLEPAGE_PATH), tocLine, newpageLine] ++
        tex_files.map (fun f => inputDirLine (basenameL f)) ++
        [endDocLine, []] := by
  simp only [generate_main_tex, nlC, List.append_assoc, List.singleton_append,
    List.cons_append, List.nil_append]
  rw [splitLines_cons_line (by decide), splitLines_cons_line (by decide),
    splitLines_cons_line (by decide), splitLines_cons_line (by decide),
    splitLines_cons_line (by decide), splitLines_cons_line (by decide)]
  rw [show endDocLine ++ [('\n' : Char)] = endDocLine ++ '\n' :: [] by rfl]
  rw [splitLines_flatten tex_files h, splitLines_cons_line (by decide)]
  rfl

/-- Witness for `C7_descriptor` on a two-file list and on the empty
list. -/
theorem C7_witness :
    (splitLines (generate_main_tex exTexFiles) =
      [docClassLine, inputDirLine (basenameL PREAMBLE_PATH), beginDocLine,
        inputDirLine (basenameL TITLEPAGE_PATH), tocLine, newpageLine] ++
        exTexFiles.map (fun f => inputDirLine (basenameL f)) ++
        [endDocLine, []]) ∧
      (splitLines (generate_main_tex []) =
        [docClassLine, inputDirLine (basenameL PREAMBLE_PATH), beginDocLine,
          inputDirLine (basenameL TITLEPAGE_PATH), tocLine, newpageLine] ++
          List.map (fun f => inputDirLine (basenameL f)) [] ++
          [endDocLine, []]) :=
  ⟨C7_descriptor exTexFiles (by decide), C7_descriptor [] (by simp)⟩

/-! ### Filesystem lemmas -/

theorem find?_filter_none (l : List (List Char × List Char)) (p : List Char) :
    (l.filter (fun e => !(e.1 == p))).find? (fun e => e.1 == p) = none := by
  induction l with
  | nil => rfl
  | cons e t ih =>
    by_cases he : e.1 = p
    · rw [List.filter_cons_of_neg (by simp [he])]
      exact ih
    · rw [List.filter_cons_of_pos (by simp [he]),
        List.find?_cons_of_neg _ (by simp [he])]
      exact ih

theorem find?_filter_other {l : List (List Char × List Char)} {p q : List Char}
    (h : q ≠ p) :
    (l.filter (fun e => !(e.1 == p))).find? (fun e => e.1 == q) =
      l.find? (fun e => e.1 == q) := by
  induction l with
  | nil => rfl
  | cons e t ih =>
    by_cases he : e.1 = p
    · rw [List.filter_cons_of_neg (by simp [he]),
        List.find?_cons_of_neg _ (by simp [he, Ne.symm h])]
      exact ih
    · rw [List.filter_cons_of_pos (by simp [he])]
      by_cases heq : e.1 = q
      · rw [List.find?_cons_of_pos _ (by simp [heq]),
          List.find?_cons_of_pos _ (by simp [heq])]
      · rw [List.find?_cons_of_neg _ (by simp [heq]),
          List.find?_cons_of_neg _ (by simp [heq])]
        exact ih

theorem lookup_remove_self (fs : FS) (p : List Char) :
    (fs.remove p).lookup p = none := by
  unfold FS.remove FS.lookup
  rw [find?_filter_none]
  rfl

theorem lookup_remove_ne (fs : FS) {p q : List Char} (h : q ≠ p) :
    (fs.remove p).lookup q = fs.lookup q := by
  unfold FS.remove FS.lookup
  rw [find?_filter_other h]

theorem lookup_write_self (fs : FS) (p c : List Char) :
    (fs.write p c).lookup p = some c := by
  unfold FS.write FS.lookup
  rw [List.find?_cons_of_pos _ (by simp)]
  rfl

theorem lookup_write_ne (fs : FS) {p q : List Char} (h : q ≠ p)
    (c : List Char) : (fs.write p c).lookup q = fs.lookup q := by
  unfold FS.write FS.lookup
  rw [List.find?_cons_of_neg _ (by simp [Ne.symm h]), find?_filter_other h]

theorem convert_ok {conv : List Char → List Char} {fs : FS}
    {md out content : List Char} (hl : fs.lookup md = some content) :
    convert_md_to_tex conv true fs md out =
      Except.ok (((fs.write (tempPath md) (normalizeHeaders content)).write out
        (conv (normalizeHeaders content))).remove (tempPath md)) := by
  unfold convert_md_to_tex
  rw [hl]
  rfl

theorem convert_fail {conv : List Char → List Char} {fs : FS}
    {md out content : List Char} (hl : fs.lookup md = some content) :
    convert_md_to_tex conv false fs md out =
      Except.error ((fs.write (tempPath md)
        (normalizeHeaders content)).remove (tempPath md)) := by
  unfold convert_md_to_tex
  rw [hl]
  rfl

/-! ### Claim C8 -/

/-- C8: the temporary normalized copy written next to the source never
persists after a converter invocation, whether the invocation returns or
raises: once the source was readable (so the copy was created at all),
the final state — success or converter failure alike — holds no file at
the temporary path. -/
theorem C8_temp_removed (conv : List Char → List Char) (ok : Bool)
    (fs : FS) (md out : List Char)
    (h : (fs.lookup md).isSome = true) :
    (stateAfter (convert_md_to_tex conv ok fs md out)).lookup (tempPath md) =
      none := by
  unfold convert_md_to_tex
  cases hl : fs.lookup md with
  | none => rw [hl] at h; simp at h
  | some content =>
    cases ok with
    | true => exact lookup_remove_self _ _
    | false => exact lookup_remove_self _ _

/-- Witness for `C8_temp_removed` on a concrete source file, for both
converter outcomes. -/
theorem C8_witness :
    ((exFS.lookup exMdPath).isSome = true) ∧
      (stateAfter (convert_md_to_tex id true exFS exMdPath
        (outPathOf exMdPath))).lookup (tempPath exMdPath) = none ∧
      (stateAfter (convert_md_to_tex id false exFS exMdPath
        (outPathOf exMdPath))).lookup (tempPath exMdPath) = none :=
  ⟨by decide, C8_temp_removed id true exFS exMdPath _ (by decide),
    C8_temp_removed id false exFS exMdPath _ (by decide)⟩

/-! ### Claim C9 -/

theorem sepHyps_tail {x : List Char} {l : List (List Char)}
    (h : sepHyps (x :: l)) : sepHyps l := by
  obtain ⟨h1, h2, h3, h4⟩ := h
  refine ⟨?_, ?_, ?_, ?_⟩
  · exact fun a ha b hb =>
      h1 a (List.mem_cons_of_mem x ha) b (List.mem_cons_of_mem x hb)
  · exact fun a ha b hb =>
      h2 a (List.mem_cons_of_mem x ha) b (List.mem_cons_of_mem x hb)
  · exact fun a ha => h3 a (List.mem_cons_of_mem x ha)
  · exact (List.nodup_cons.mp h4).2

/-- Behavior of the conversion loop when the first converter failure is
at the file `bad`, after the prefix `pre` succeeded: the loop raises, the
state at the raise holds the converted intermediates of `pre`, and every
path other than the temporaries and intermediates of `pre ++ [bad]` is
untouched. -/
theorem processFiles_fail (conv : List Char → List Char) (oks : Nat → Bool) :
    ∀ (pre : List (List Char)) (bad : List Char) (post : List (List Char))
      (i : Nat) (fs : FS),
      (∀ j, j < pre.length → oks (i + j) = true) →
      oks (i + pre.length) = false →
      (∀ md ∈ pre ++ [bad], (fs.lookup md).isSome = true) →
      sepHyps (pre ++ [bad]) →
      ∃ fsE,
        processFiles conv oks i fs (pre ++ bad :: post) = Except.error fsE ∧
          (∀ p, (∀ md ∈ pre ++ [bad], p ≠ tempPath md ∧ p ≠ outPathOf md) →
            fsE.lookup p = fs.lookup p) ∧
          (∀ md ∈ pre, fsE.lookup (outPathOf md) =
            some (conv (normalizeHeaders ((fs.lookup md).getD [])))) := by
  intro pre
  induction pre with
  | nil =>
    intro bad post i fs _ hbad hread _
    have hbad0 : oks i = false := by simpa using hbad
    obtain ⟨content, hc⟩ : ∃ c, fs.lookup bad = some c := by
      have hsome := hread bad (by simp)
      cases hl : fs.lookup bad with
      | none => rw [hl] at hsome; simp at hsome
      | some c => exact ⟨c, rfl⟩
    refine ⟨(fs.write (tempPath bad) (normalizeHeaders content)).remove
      (tempPath bad), ?_, ?_, ?_⟩
    · show processFiles conv oks i fs (bad :: post) = _
      simp only [processFiles]
      rw [hbad0, convert_fail hc]
    · intro p hp
      obtain ⟨h1, h2⟩ := hp bad (by simp)
      rw [lookup_remove_ne _ h1, lookup_write_ne _ h1]
    · intro md hmd
      simp at hmd
  | cons md0 pre' ih =>
    intro bad post i fs hoks hbad hread hsep
    have hok0 : oks i = true := by simpa using hoks 0 (by simp)
    obtain ⟨c0, hc0⟩ : ∃ c, fs.lookup md0 = some c := by
      have hsome := hread md0 (by simp)
      cases hl : fs.lookup md0 with
      | none => rw [hl] at hsome; simp at hsome
      | some c => exact ⟨c, rfl⟩
    set fs' := ((fs.write (tempPath md0) (normalizeHeaders c0)).write
      (outPathOf md0) (conv (normalizeHeaders c0))).remove (tempPath md0)
      with hfs'
    have hmd0l : md0 ∈ (md0 :: pre') ++ [bad] := by simp
    obtain ⟨hsep1, hsep2, hsep3, hsep4⟩ := hsep
    have hmemlift : ∀ md ∈ pre' ++ [bad], md ∈ (md0 :: pre') ++ [bad] :=
      fun md hmd => List.mem_cons_of_mem md0 hmd
    have hpreserve : ∀ md ∈ pre' ++ [bad], fs'.lookup md = fs.lookup md := by
      intro md hmd
      obtain ⟨ht, ho, _⟩ := hsep1 md (hmemlift md hmd) md0 hmd0l
      rw [hfs', lookup_remove_ne _ ht, lookup_write_ne _ ho,
        lookup_write_ne _ ht]
    have hread' : ∀ md ∈ pre' ++ [bad], (fs'.lookup md).isSome = true := by
      intro md hmd
      rw [hpreserve md hmd]
      exact hread md (hmemlift md hmd)
    have hsep' : sepHyps (pre' ++ [bad]) :=
      sepHyps_tail ⟨hsep1, hsep2, hsep3, hsep4⟩
    obtain ⟨fsE, hrun, huntouched, houts⟩ := ih bad post (i + 1) fs'
      (fun j hj => by
        rw [show i + 1 + j = i + (j + 1) by omega]
        exact hoks (j + 1) (by simp; omega))
      (by
        rw [show i + 1 + pre'.length = i + (pre'.length + 1) by omega]
        simpa using hbad)
      hread' hsep'
    refine ⟨fsE, ?_, ?_, ?_⟩
    · show processFiles conv oks i fs (md0 :: (pre' ++ bad :: post)) = _
      simp only [processFiles]
      rw [hok0, convert_ok hc0, ← hfs']
      exact hrun
    · intro p hp
      rw [huntouched p (fun md hmd => hp md (hmemlift md hmd))]
      obtain ⟨ht0, ho0⟩ := hp md0 hmd0l
      rw [hfs', lookup_remove_ne _ ht0, lookup_write_ne _ ho0,
        lookup_write_ne _ ht0]
    · intro md hmd
      rcases List.mem_cons.mp hmd with rfl | hmd'
      · have hout_untouched : ∀ md' ∈ pre' ++ [bad],
            outPathOf md ≠ tempPath md' ∧ outPathOf md ≠ outPathOf md' := by
          intro md' hmd'
          refine ⟨(hsep1 md hmd0l md' (hmemlift md' hmd')).2.2, ?_⟩
          intro he
          have heq0 : md = md' := hsep2 md hmd0l md' (hmemlift md' hmd') he
          have hnodup : (md :: (pre' ++ [bad])).Nodup := hsep4
          exact (List.nodup_cons.mp hnodup).1 (heq0 ▸ hmd')
        rw [huntouched (outPathOf md) hout_untouched]
        rw [hfs',
          lookup_remove_ne _ (hsep1 md hmd0l md hmd0l).2.2,
          lookup_write_self, hc0]
        rfl
      · rw [houts md hmd',
          hpreserve md (List.mem_append.mpr (Or.inl hmd'))]

/-- C9: a non-zero exit from the external converter terminates the
pipeline immediately — no error is caught.  If the converter fails on the
file after `pre`, the run raises; at that point the descriptor file is
exactly as it was before the run (not produced), while the intermediates
of `pre` are on disk with their converted content.  A non-zero exit of
the typesetting engine likewise raises. -/
theorem C9_converter_failure (conv render : List Char → List Char)
    (oks : Nat → Bool) (xok1 xok2 : Bool)
    (walk : List (List Char × List (List Char))) (fs : FS)
    (pre : List (List Char)) (bad : List Char) (post : List (List Char))
    (hsplit : get_markdown_files walk = pre ++ bad :: post)
    (hoks : ∀ j, j < pre.length → oks j = true)
    (hbad : oks pre.length = false)
    (hread : ∀ md ∈ pre ++ [bad], (fs.lookup md).isSome = true)
    (hsep : sepHyps (pre ++ [bad])) :
    ∃ fsE,
      runMain conv render oks xok1 xok2 walk fs = Except.error fsE ∧
        fsE.lookup MAIN_TEX_PATH = fs.lookup MAIN_TEX_PATH ∧
        (∀ md ∈ pre, fsE.lookup (outPathOf md) =
          some (conv (normalizeHeaders ((fs.lookup md).getD [])))) ∧
        (∀ fs', xelatexRun render false fs' = Except.error fs') := by
  obtain ⟨fsE, hrun, huntouched, houts⟩ := processFiles_fail conv oks pre bad
    post 0 fs (fun j hj => by simpa using hoks j hj) (by simpa using hbad)
    hread hsep
  refine ⟨fsE, ?_, ?_, houts, fun fs' => rfl⟩
  · unfold runMain
    rw [hsplit, hrun]
  · apply huntouched
    intro md hmd
    obtain ⟨h3a, h3b⟩ := hsep.2.2.1 md hmd
    exact ⟨Ne.symm h3a, Ne.symm h3b⟩

/-- Witness for `C9_converter_failure`: two files, converter fails on the
second; the run errors with the first intermediate present and no
descriptor written. -/
theorem C9_witness :
    ∃ fsE,
      runMain id id exOks true true exWalk9 exFS2 = Except.error fsE ∧
        fsE.lookup MAIN_TEX_PATH = exFS2.lookup MAIN_TEX_PATH ∧
        (∀ md ∈ [exMdPath], fsE.lookup (outPathOf md) =
          some (id (normalizeHeaders ((exFS2.lookup md).getD [])))) ∧
        (∀ fs', xelatexRun id false fs' = Except.error fs') :=
  C9_converter_failure id id exOks true true exWalk9 exFS2 [exMdPath]
    exMdPath2 [] (by decide) (by decide) (by decide) (by decide) (by decide)

end Build
